import Mathlib

/- Verification of the tide-table extraction and low-to-high pairing engine
  (make_tides_json.py, scripts/make_tide_next_json.py).  Python floats are
  modelled as exact rationals; Python's `round(x, 2)` (round half to even)
  is modelled by `round2`; Python's stable `sorted` by key is modelled by a
  stable insertion sort on the same key. -/

set_option allowUnsafeReducibility true
attribute [semireducible] Rat.add Rat.mul Rat.sub Rat.blt Rat.normalize Rat.div Rat.inv Rat.neg Rat.ofScientific

namespace Tides

/-- Round a rational to the nearest integer, ties to even: the semantics of
Python's builtin `round`.  Computed from the numerator and denominator with
integer arithmetic (`Int.fdiv` is floor division, the denominator is
positive). -/
def roundHalfEven (q : ℚ) : ℤ :=
  let f : ℤ := q.num.fdiv q.den
  let r : ℤ := q.num - f * q.den
  if 2 * r < (q.den : ℤ) then f
  else if (q.den : ℤ) < 2 * r then f + 1
  else if f % 2 = 0 then f else f + 1

/-- Python's `round(x, 2)`: round `x * 100` half-to-even, divide by 100. -/
def round2 (q : ℚ) : ℚ := (roundHalfEven (q * 100) : ℚ) / 100

theorem roundHalfEven_intCast (n : ℤ) : roundHalfEven (n : ℚ) = n := by
  have hnum : ((n : ℚ)).num = n := Rat.num_intCast n
  have hden : ((n : ℚ)).den = 1 := Rat.den_intCast n
  simp [roundHalfEven, hnum, hden, Int.fdiv_one]

theorem round2_grid (k : ℤ) : round2 ((k : ℚ) / 100) = (k : ℚ) / 100 := by
  have h : ((k : ℚ) / 100) * 100 = (k : ℚ) := by
    field_simp
  rw [round2, h, roundHalfEven_intCast]

theorem round2_eq_grid (q : ℚ) : round2 q = ((roundHalfEven (q * 100) : ℤ) : ℚ) / 100 := rfl

theorem round2_idem (q : ℚ) : round2 (round2 q) = round2 q := by
  rw [round2_eq_grid q, round2_grid]

theorem round2_fix_sub {a b : ℚ} (ha : round2 a = a) (hb : round2 b = b) :
    round2 (a - b) = a - b := by
  have hka : a = ((roundHalfEven (a * 100) : ℤ) : ℚ) / 100 := ha.symm.trans (round2_eq_grid a)
  have hkb : b = ((roundHalfEven (b * 100) : ℤ) : ℚ) / 100 := hb.symm.trans (round2_eq_grid b)
  rw [hka, hkb, div_sub_div_same, ← Int.cast_sub, round2_grid]

/-- One raw tide observation of `make_tides_json.py` (`TideEvent`): a
zero-padded `HHMM` clock string and a height in metres. -/
structure TideEvent where
  time_hhmm : String
  height_m : ℚ
deriving DecidableEq, Repr

instance : Inhabited TideEvent := ⟨⟨"", 0⟩⟩

/-- Lexicographic comparison of char lists by code point: the semantics of
Python's `<=` on strings, used by `sorted(..., key=lambda e: e.time_hhmm)`. -/
def charListLe : List Char → List Char → Bool
  | [], _ => true
  | _ :: _, [] => false
  | a :: as, b :: bs => if a < b then true else if b < a then false else charListLe as bs

/-- String comparison by code points, as Python compares the `HHMM` keys. -/
def timeLe (s t : String) : Bool := charListLe s.data t.data

theorem charListLe_cons_iff {x y : Char} {xs ys : List Char} :
    charListLe (x :: xs) (y :: ys) = true ↔ x < y ∨ (x = y ∧ charListLe xs ys = true) := by
  rcases lt_trichotomy x y with h | h | h
  · simp [charListLe, h]
  · subst h; simp [charListLe, lt_irrefl]
  · have h1 : ¬ x < y := not_lt_of_gt h
    have h2 : x ≠ y := ne_of_gt h
    simp [charListLe, h1, h, h2]

theorem charListLe_refl (a : List Char) : charListLe a a = true := by
  induction a with
  | nil => rfl
  | cons x xs ih => exact charListLe_cons_iff.mpr (Or.inr ⟨rfl, ih⟩)

theorem charListLe_total (a b : List Char) :
    charListLe a b = true ∨ charListLe b a = true := by
  induction a generalizing b with
  | nil => exact Or.inl rfl
  | cons x xs ih =>
    cases b with
    | nil => exact Or.inr rfl
    | cons y ys =>
      rcases lt_trichotomy x y with h | h | h
      · exact Or.inl (charListLe_cons_iff.mpr (Or.inl h))
      · subst h
        rcases ih ys with h2 | h2
        · exact Or.inl (charListLe_cons_iff.mpr (Or.inr ⟨rfl, h2⟩))
        · exact Or.inr (charListLe_cons_iff.mpr (Or.inr ⟨rfl, h2⟩))
      · exact Or.inr (charListLe_cons_iff.mpr (Or.inl h))

theorem charListLe_trans {a b c : List Char} (hab : charListLe a b = true)
    (hbc : charListLe b c = true) : charListLe a c = true := by
  induction a generalizing b c with
  | nil => rfl
  | cons x xs ih =>
    cases b with
    | nil => simp [charListLe] at hab
    | cons y ys =>
      cases c with
      | nil => simp [charListLe] at hbc
      | cons z zs =>
        rcases charListLe_cons_iff.mp hab with hxy | ⟨rfl, hab2⟩
        · rcases charListLe_cons_iff.mp hbc with hyz | ⟨rfl, _⟩
          · exact charListLe_cons_iff.mpr (Or.inl (lt_trans hxy hyz))
          · exact charListLe_cons_iff.mpr (Or.inl hxy)
        · rcases charListLe_cons_iff.mp hbc with hyz | ⟨rfl, hbc2⟩
          · exact charListLe_cons_iff.mpr (Or.inl hyz)
          · exact charListLe_cons_iff.mpr (Or.inr ⟨rfl, ih hab2 hbc2⟩)

theorem timeLe_refl (s : String) : timeLe s s = true := charListLe_refl s.data

theorem timeLe_total (s t : String) : timeLe s t = true ∨ timeLe t s = true :=
  charListLe_total s.data t.data

theorem timeLe_trans {s t u : String} (h1 : timeLe s t = true) (h2 : timeLe t u = true) :
    timeLe s u = true := charListLe_trans h1 h2

/-- Insert an event into a time-sorted list, before the first event whose key
is not smaller: together with `sortByTime` this is a stable sort by
`time_hhmm`, the behaviour of Python's `sorted(events, key=lambda e:
e.time_hhmm)`. -/
def insertByTime (e : TideEvent) : List TideEvent → List TideEvent
  | [] => [e]
  | f :: fs => if timeLe e.time_hhmm f.time_hhmm then e :: f :: fs else f :: insertByTime e fs

/-- Stable sort of one day's observations by clock time (`sorted(events,
key=lambda e: e.time_hhmm)`, lines 175-176 and 278 of make_tides_json.py). -/
def sortByTime (l : List TideEvent) : List TideEvent := l.foldr insertByTime []

/-- The ordering the sort establishes on events. -/
def leTime (a b : TideEvent) : Prop := timeLe a.time_hhmm b.time_hhmm = true

instance : DecidableRel leTime := fun a b => by unfold leTime; infer_instance

theorem length_insertByTime (e : TideEvent) (l : List TideEvent) :
    (insertByTime e l).length = l.length + 1 := by
  induction l with
  | nil => rfl
  | cons f fs ih =>
    by_cases h : timeLe e.time_hhmm f.time_hhmm
    · simp [insertByTime, h]
    · simp [insertByTime, h, ih]

theorem sortByTime_cons (e : TideEvent) (es : List TideEvent) :
    sortByTime (e :: es) = insertByTime e (sortByTime es) := rfl

theorem length_sortByTime (l : List TideEvent) : (sortByTime l).length = l.length := by
  induction l with
  | nil => rfl
  | cons e es ih =>
    rw [sortByTime_cons, length_insertByTime, ih]
    rfl

theorem mem_insertByTime {x e : TideEvent} {l : List TideEvent} :
    x ∈ insertByTime e l ↔ x = e ∨ x ∈ l := by
  induction l with
  | nil => simp [insertByTime]
  | cons f fs ih =>
    by_cases h : timeLe e.time_hhmm f.time_hhmm
    · rw [insertByTime, if_pos h]
      constructor
      · intro hx; rcases List.mem_cons.mp hx with rfl | hx
        · exact Or.inl rfl
        · exact Or.inr hx
      · intro hx; rcases hx with rfl | hx
        · exact List.mem_cons_self _ _
        · exact List.mem_cons_of_mem _ hx
    · rw [insertByTime, if_neg h]
      simp [ih]
      tauto

theorem mem_sortByTime {x : TideEvent} {l : List TideEvent} :
    x ∈ sortByTime l ↔ x ∈ l := by
  induction l with
  | nil => exact Iff.rfl
  | cons e es ih =>
    rw [sortByTime_cons, mem_insertByTime, ih]
    simp

theorem pairwise_insertByTime {e : TideEvent} {l : List TideEvent}
    (h : List.Pairwise leTime l) : List.Pairwise leTime (insertByTime e l) := by
  induction l with
  | nil => simp [insertByTime, List.pairwise_cons]
  | cons f fs ih =>
    rcases List.pairwise_cons.mp h with ⟨hf, hfs⟩
    by_cases hef : timeLe e.time_hhmm f.time_hhmm
    · rw [insertByTime, if_pos hef]
      refine List.pairwise_cons.mpr ⟨?_, h⟩
      intro x hx
      rcases List.mem_cons.mp hx with rfl | hx
      · exact hef
      · exact timeLe_trans hef (hf x hx)
    · rw [insertByTime, if_neg hef]
      refine List.pairwise_cons.mpr ⟨?_, ih hfs⟩
      intro x hx
      rcases mem_insertByTime.mp hx with rfl | hx
      · rcases timeLe_total x.time_hhmm f.time_hhmm with h1 | h1
        · exact absurd h1 hef
        · exact h1
      · exact hf x hx

theorem sorted_sortByTime (l : List TideEvent) : List.Pairwise leTime (sortByTime l) := by
  induction l with
  | nil => exact List.Pairwise.nil
  | cons e es ih =>
    rw [sortByTime_cons]
    exact pairwise_insertByTime ih

/-- The label the classifier attaches to a point: the strings `"low"` and
`"high"` of the Python code. -/
inductive Kind where
  | low
  | high
deriving DecidableEq

/-- One entry of the `classified` list of `build_low_to_high_pairs`: the tuple
`(e.time_hhmm, round(e.height_m, 2), kind)` of line 296. -/
structure CPoint where
  time : String
  h : ℚ
  kind : Kind
deriving DecidableEq

instance : Inhabited CPoint := ⟨⟨"", 0, Kind.low⟩⟩

/-- One emitted pair (the dict appended at lines 315-321). -/
structure TidalPair where
  low_time : String
  low_m : ℚ
  high_time : String
  high_m : ℚ
  move_m : ℚ
deriving DecidableEq

instance : Inhabited TidalPair := ⟨⟨"", 0, "", 0, 0⟩⟩

/-- The extrema-classification rule of `build_low_to_high_pairs`
(lines 282-295) for index `i` of a sequence of `n` heights: first element by
comparison with its successor, last element by comparison with its
predecessor, interior elements by the low / high / slope-fallback cascade. -/
def classifyAt (heights : List ℚ) (n i : Nat) : Kind :=
  if i = 0 then
    if heights.getD 0 0 ≤ heights.getD 1 0 then Kind.low else Kind.high
  else if i = n - 1 then
    if heights.getD (i - 1) 0 ≤ heights.getD i 0 then Kind.high else Kind.low
  else
    let prev_h := heights.getD (i - 1) 0
    let next_h := heights.getD (i + 1) 0
    let hgt := heights.getD i 0
    if hgt ≤ prev_h ∧ hgt ≤ next_h then Kind.low
    else if prev_h ≤ hgt ∧ next_h ≤ hgt then Kind.high
    else if prev_h < hgt then Kind.high else Kind.low

/-- The `classified` list built by the loop at lines 282-296: each event of the
(already sorted) sequence with its height rounded to 2 decimals and its label. -/
def classify (ev : List TideEvent) : List CPoint :=
  (List.range ev.length).map fun i =>
    ⟨(ev.getD i default).time_hhmm, round2 (ev.getD i default).height_m,
     classifyAt (ev.map (·.height_m)) ev.length i⟩

/-- Fuel-bounded model of the inner `while` loop at lines 305-307: from index
`j`, the index of the first classified point labeled `high`.  The fuel only
bounds the trip count; `findHigh` always supplies enough. -/
def findHighF : Nat → List CPoint → Nat → Option Nat
  | 0, _, _ => none
  | fuel + 1, c, j =>
    if j < c.length then
      if (c.getD j default).kind = Kind.high then some j else findHighF fuel c (j + 1)
    else none

/-- Index of the first `high` at or after `j` (lines 305-307). -/
def findHigh (c : List CPoint) (j : Nat) : Option Nat := findHighF (c.length + 1) c j

/-- Fuel-bounded model of the outer `while` loop at lines 299-322: scan from
index `i`; skip non-lows; for a low, seek the next high (`findHigh`); stop
altogether when none exists; skip one position when the high does not rise
above the low; otherwise emit the pair and resume after the high. -/
def scanPairsF : Nat → List CPoint → Nat → List TidalPair
  | 0, _, _ => []
  | fuel + 1, c, i =>
    if i < c.length then
      let p := c.getD i default
      if p.kind ≠ Kind.low then scanPairsF fuel c (i + 1)
      else
        match findHigh c (i + 1) with
        | none => []
        | some j =>
          let q := c.getD j default
          if q.h ≤ p.h then scanPairsF fuel c (i + 1)
          else ⟨p.time, round2 p.h, q.time, round2 q.h, round2 (q.h - p.h)⟩ ::
            scanPairsF fuel c (j + 1)
    else []

/-- The pair-building loop of lines 298-322 started at index `i`. -/
def scanPairs (c : List CPoint) (i : Nat) : List TidalPair := scanPairsF (c.length + 1) c i

theorem findHighF_fuel {c : List CPoint} {j f1 f2 : Nat}
    (h1 : c.length - j < f1) (h2 : c.length - j < f2) :
    findHighF f1 c j = findHighF f2 c j := by
  induction f1 generalizing j f2 with
  | zero => omega
  | succ f ih =>
    cases f2 with
    | zero => omega
    | succ g =>
      simp only [findHighF]
      by_cases hj : j < c.length
      · simp only [if_pos hj]
        by_cases hk : (c.getD j default).kind = Kind.high
        · simp only [if_pos hk]
        · simp only [if_neg hk]
          exact ih (by omega) (by omega)
      · simp only [if_neg hj]

theorem findHigh_eq (c : List CPoint) (j : Nat) :
    findHigh c j =
      if j < c.length then
        if (c.getD j default).kind = Kind.high then some j else findHigh c (j + 1)
      else none := by
  unfold findHigh
  conv_lhs => simp only [findHighF]
  by_cases hj : j < c.length
  · simp only [if_pos hj]
    by_cases hk : (c.getD j default).kind = Kind.high
    · simp only [if_pos hk]
    · simp only [if_neg hk]
      exact findHighF_fuel (by omega) (by omega)
  · simp only [if_neg hj]

theorem findHighF_bounds {f : Nat} {c : List CPoint} {j j' : Nat}
    (h : findHighF f c j = some j') :
    j ≤ j' ∧ j' < c.length ∧ (c.getD j' default).kind = Kind.high := by
  induction f generalizing j with
  | zero => simp [findHighF] at h
  | succ f ih =>
    simp only [findHighF] at h
    by_cases hj : j < c.length
    · rw [if_pos hj] at h
      by_cases hk : (c.getD j default).kind = Kind.high
      · rw [if_pos hk] at h
        obtain rfl : j = j' := by simpa using h
        exact ⟨le_refl j, hj, hk⟩
      · rw [if_neg hk] at h
        obtain ⟨h1, h2, h3⟩ := ih h
        exact ⟨by omega, h2, h3⟩
    · rw [if_neg hj] at h
      cases h

theorem findHigh_bounds {c : List CPoint} {j j' : Nat} (h : findHigh c j = some j') :
    j ≤ j' ∧ j' < c.length ∧ (c.getD j' default).kind = Kind.high :=
  findHighF_bounds h

theorem findHighF_min {f : Nat} {c : List CPoint} {j j' : Nat}
    (h : findHighF f c j = some j') :
    ∀ k, j ≤ k → k < j' → (c.getD k default).kind ≠ Kind.high := by
  induction f generalizing j with
  | zero => simp [findHighF] at h
  | succ f ih =>
    simp only [findHighF] at h
    by_cases hj : j < c.length
    · rw [if_pos hj] at h
      by_cases hk : (c.getD j default).kind = Kind.high
      · rw [if_pos hk] at h
        obtain rfl : j = j' := by simpa using h
        intro k hk1 hk2
        omega
      · rw [if_neg hk] at h
        intro k hk1 hk2
        rcases Nat.eq_or_lt_of_le hk1 with rfl | hlt
        · exact hk
        · exact ih h k hlt hk2
    · rw [if_neg hj] at h
      cases h

theorem findHigh_min {c : List CPoint} {j j' : Nat} (h : findHigh c j = some j') :
    ∀ k, j ≤ k → k < j' → (c.getD k default).kind ≠ Kind.high :=
  findHighF_min h

theorem findHighF_none {f : Nat} {c : List CPoint} {j : Nat}
    (h : findHighF f c j = none) (hf : c.length - j < f) :
    ∀ k, j ≤ k → k < c.length → (c.getD k default).kind ≠ Kind.high := by
  induction f generalizing j with
  | zero => omega
  | succ f ih =>
    simp only [findHighF] at h
    by_cases hj : j < c.length
    · rw [if_pos hj] at h
      by_cases hk : (c.getD j default).kind = Kind.high
      · rw [if_pos hk] at h
        cases h
      · rw [if_neg hk] at h
        intro k hk1 hk2
        rcases Nat.eq_or_lt_of_le hk1 with rfl | hlt
        · exact hk
        · exact ih h (by omega) k hlt hk2
    · intro k hk1 hk2
      omega

theorem findHigh_none {c : List CPoint} {j : Nat} (h : findHigh c j = none) :
    ∀ k, j ≤ k → k < c.length → (c.getD k default).kind ≠ Kind.high :=
  findHighF_none h (by omega)

theorem scanPairsF_fuel {c : List CPoint} {i f1 f2 : Nat}
    (h1 : c.length - i < f1) (h2 : c.length - i < f2) :
    scanPairsF f1 c i = scanPairsF f2 c i := by
  induction f1 generalizing i f2 with
  | zero => omega
  | succ f ih =>
    cases f2 with
    | zero => omega
    | succ g =>
      simp only [scanPairsF]
      by_cases hi : i < c.length
      · simp only [if_pos hi]
        by_cases hk : (c.getD i default).kind = Kind.low
        · simp only [hk, ne_eq, not_true_eq_false, if_false]
          cases hfh : findHigh c (i + 1) with
          | none => rfl
          | some j =>
            obtain ⟨hj1, hj2, _⟩ := findHigh_bounds hfh
            by_cases hle : (c.getD j default).h ≤ (c.getD i default).h
            · simp only [if_pos hle]
              exact ih (by omega) (by omega)
            · simp only [if_neg hle]
              have hrec : scanPairsF f c (j + 1) = scanPairsF g c (j + 1) :=
                ih (by omega) (by omega)
              rw [hrec]
        · simp only [ne_eq, hk, not_false_eq_true, if_true]
          exact ih (by omega) (by omega)
      · simp [if_neg hi]

theorem scanPairs_oob {c : List CPoint} {i : Nat} (hi : ¬ i < c.length) :
    scanPairs c i = [] := by
  unfold scanPairs
  simp [scanPairsF, if_neg hi]

theorem scanPairs_skip {c : List CPoint} {i : Nat} (hi : i < c.length)
    (hk : (c.getD i default).kind ≠ Kind.low) :
    scanPairs c i = scanPairs c (i + 1) := by
  unfold scanPairs
  conv_lhs => simp only [scanPairsF]
  rw [if_pos hi, if_pos hk]
  exact scanPairsF_fuel (by omega) (by omega)

theorem scanPairs_stop {c : List CPoint} {i : Nat} (hi : i < c.length)
    (hk : (c.getD i default).kind = Kind.low) (hf : findHigh c (i + 1) = none) :
    scanPairs c i = [] := by
  unfold scanPairs
  conv_lhs => simp only [scanPairsF]
  rw [if_pos hi, if_neg (not_not_intro hk), hf]

theorem scanPairs_reject {c : List CPoint} {i j : Nat} (hi : i < c.length)
    (hk : (c.getD i default).kind = Kind.low) (hf : findHigh c (i + 1) = some j)
    (hle : (c.getD j default).h ≤ (c.getD i default).h) :
    scanPairs c i = scanPairs c (i + 1) := by
  unfold scanPairs
  conv_lhs => simp only [scanPairsF]
  rw [if_pos hi, if_neg (not_not_intro hk), hf]
  dsimp only
  rw [if_pos hle]
  exact scanPairsF_fuel (by omega) (by omega)

theorem scanPairs_emit {c : List CPoint} {i j : Nat} (hi : i < c.length)
    (hk : (c.getD i default).kind = Kind.low) (hf : findHigh c (i + 1) = some j)
    (hgt : (c.getD i default).h < (c.getD j default).h) :
    scanPairs c i =
      ⟨(c.getD i default).time, round2 (c.getD i default).h, (c.getD j default).time,
        round2 (c.getD j default).h,
        round2 ((c.getD j default).h - (c.getD i default).h)⟩ :: scanPairs c (j + 1) := by
  obtain ⟨hj1, hj2, _⟩ := findHigh_bounds hf
  unfold scanPairs
  conv_lhs => simp only [scanPairsF]
  rw [if_pos hi, if_neg (not_not_intro hk), hf]
  dsimp only
  rw [if_neg (not_le.mpr hgt)]
  have hrec : scanPairsF c.length c (j + 1) = scanPairsF (c.length + 1) c (j + 1) :=
    scanPairsF_fuel (by omega) (by omega)
  rw [hrec]

theorem getD_eq_get {α : Type} [Inhabited α] (l : List α) {i : Nat} (h : i < l.length) :
    l.getD i default = l.get ⟨i, h⟩ := by
  rw [List.getD_eq_getElem _ _ h, List.get_eq_getElem]

theorem scanPairsF_length {f : Nat} {c : List CPoint} {i : Nat} (hf : c.length - i < f) :
    (scanPairsF f c i).length ≤ (c.length - i) / 2 := by
  induction f generalizing i with
  | zero => omega
  | succ f ih =>
    simp only [scanPairsF]
    by_cases hi : i < c.length
    · rw [if_pos hi]
      by_cases hk : (c.getD i default).kind = Kind.low
      · rw [if_neg (not_not_intro hk)]
        cases hfh : findHigh c (i + 1) with
        | none => simp
        | some j =>
          obtain ⟨hj1, hj2, _⟩ := findHigh_bounds hfh
          dsimp only
          by_cases hle : (c.getD j default).h ≤ (c.getD i default).h
          · rw [if_pos hle]
            calc (scanPairsF f c (i + 1)).length
                ≤ (c.length - (i + 1)) / 2 := ih (by omega)
              _ ≤ (c.length - i) / 2 := Nat.div_le_div_right (by omega)
          · rw [if_neg hle]
            simp only [List.length_cons]
            have h1 : (scanPairsF f c (j + 1)).length ≤ (c.length - (j + 1)) / 2 :=
              ih (by omega)
            have h2 : (c.length - (j + 1)) / 2 ≤ (c.length - i - 2) / 2 :=
              Nat.div_le_div_right (by omega)
            have h3 : (c.length - i - 2) / 2 + 1 = (c.length - i) / 2 := by
              have he : c.length - i - 2 + 2 = c.length - i := by omega
              calc (c.length - i - 2) / 2 + 1 = (c.length - i - 2 + 2) / 2 :=
                    (Nat.add_div_right _ (by norm_num)).symm
                _ = (c.length - i) / 2 := by rw [he]
            omega
      · rw [if_pos hk]
        calc (scanPairsF f c (i + 1)).length
            ≤ (c.length - (i + 1)) / 2 := ih (by omega)
          _ ≤ (c.length - i) / 2 := Nat.div_le_div_right (by omega)
    · rw [if_neg hi]
      simp

theorem scanPairs_length (c : List CPoint) (i : Nat) :
    (scanPairs c i).length ≤ (c.length - i) / 2 :=
  scanPairsF_length (by omega)

theorem scanPairsF_fields {f : Nat} {c : List CPoint}
    (hg : ∀ pt ∈ c, round2 pt.h = pt.h)
    (hp : List.Pairwise (fun a b : CPoint => timeLe a.time b.time = true) c) :
    ∀ {i : Nat}, ∀ p ∈ scanPairsF f c i,
      p.move_m = p.high_m - p.low_m ∧ 0 < p.move_m ∧ timeLe p.low_time p.high_time = true := by
  induction f with
  | zero => intro i p hmem; simp [scanPairsF] at hmem
  | succ f ih =>
    intro i p hmem
    simp only [scanPairsF] at hmem
    by_cases hi : i < c.length
    · rw [if_pos hi] at hmem
      by_cases hk : (c.getD i default).kind = Kind.low
      · rw [if_neg (not_not_intro hk)] at hmem
        cases hfh : findHigh c (i + 1) with
        | none => rw [hfh] at hmem; cases hmem
        | some j =>
          rw [hfh] at hmem
          dsimp only at hmem
          obtain ⟨hj1, hj2, _⟩ := findHigh_bounds hfh
          by_cases hle : (c.getD j default).h ≤ (c.getD i default).h
          · rw [if_pos hle] at hmem
            exact ih p hmem
          · rw [if_neg hle] at hmem
            rcases List.mem_cons.mp hmem with rfl | hmem2
            · have hmi : c.getD i default ∈ c := by
                rw [List.getD_eq_getElem _ _ hi]; exact List.getElem_mem _
              have hmj : c.getD j default ∈ c := by
                rw [List.getD_eq_getElem _ _ hj2]; exact List.getElem_mem _
              have hgi := hg _ hmi
              have hgj := hg _ hmj
              have hmv : round2 ((c.getD j default).h - (c.getD i default).h) =
                  (c.getD j default).h - (c.getD i default).h := round2_fix_sub hgj hgi
              refine ⟨?_, ?_, ?_⟩
              · simp only [hmv, hgi, hgj]
              · simp only [hmv]
                exact sub_pos.mpr (not_le.mp hle)
              · have hij : (⟨i, hi⟩ : Fin c.length) < ⟨j, hj2⟩ := by
                  simp only [Fin.mk_lt_mk]; omega
                have := List.pairwise_iff_get.mp hp ⟨i, hi⟩ ⟨j, hj2⟩ hij
                simpa only [getD_eq_get c hi, getD_eq_get c hj2] using this
            · exact ih p hmem2
      · rw [if_pos hk] at hmem
        exact ih p hmem
    · rw [if_neg hi] at hmem
      cases hmem

theorem scanPairs_fields {c : List CPoint} {i : Nat}
    (hg : ∀ pt ∈ c, round2 pt.h = pt.h)
    (hp : List.Pairwise (fun a b : CPoint => timeLe a.time b.time = true) c) :
    ∀ p ∈ scanPairs c i,
      p.move_m = p.high_m - p.low_m ∧ 0 < p.move_m ∧ timeLe p.low_time p.high_time = true :=
  scanPairsF_fields hg hp

theorem scanPairsF_allHigh {f : Nat} {c : List CPoint} {i : Nat}
    (hall : ∀ k, i ≤ k → k < c.length → (c.getD k default).kind = Kind.high) :
    scanPairsF f c i = [] := by
  induction f generalizing i with
  | zero => rfl
  | succ f ih =>
    simp only [scanPairsF]
    by_cases hi : i < c.length
    · rw [if_pos hi]
      have hk : (c.getD i default).kind = Kind.high := hall i le_rfl hi
      have hne : (c.getD i default).kind ≠ Kind.low := by rw [hk]; intro h; cases h
      rw [if_pos hne]
      exact ih fun k hk1 hk2 => hall k (by omega) hk2
    · rw [if_neg hi]

theorem scanPairs_allHigh {c : List CPoint} {i : Nat}
    (hall : ∀ k, i ≤ k → k < c.length → (c.getD k default).kind = Kind.high) :
    scanPairs c i = [] :=
  scanPairsF_allHigh hall

/-- `build_low_to_high_pairs` (lines 274-324): guard short sequences, sort by
time, classify, then scan for low-to-high pairs. -/
def build_low_to_high_pairs (events : List TideEvent) : List TidalPair :=
  if events.length < 2 then []
  else scanPairs (classify (sortByTime events)) 0

/-- The classified points the day pipeline computes: for fewer than 2
observations the guard at line 275 returns before anything is classified. -/
def dayClassifiedPoints (events : List TideEvent) : List CPoint :=
  if events.length < 2 then [] else classify (sortByTime events)

/-- Python's `max` over a nonempty list, first element split off. -/
def listMax (x : ℚ) (xs : List ℚ) : ℚ := xs.foldl max x

/-- Height of the observation at index `i`. -/
def heightAt (ev : List TideEvent) (i : Nat) : ℚ := (ev.getD i default).height_m

theorem heights_getD {ev : List TideEvent} {i : Nat} (hi : i < ev.length) :
    (ev.map (·.height_m)).getD i 0 = heightAt ev i := by
  have hi2 : i < (ev.map (·.height_m)).length := by simpa using hi
  rw [List.getD_eq_getElem _ _ hi2, List.getElem_map, heightAt, List.getD_eq_getElem _ _ hi]

theorem classify_length (ev : List TideEvent) : (classify ev).length = ev.length := by
  unfold classify
  rw [List.length_map, List.length_range]

theorem classify_getD {ev : List TideEvent} {i : Nat} (hi : i < ev.length) :
    (classify ev).getD i default =
      ⟨(ev.getD i default).time_hhmm, round2 (ev.getD i default).height_m,
        classifyAt (ev.map (·.height_m)) ev.length i⟩ := by
  have hi2 : i < (classify ev).length := by rw [classify_length]; exact hi
  rw [List.getD_eq_getElem _ _ hi2]
  unfold classify
  rw [List.getElem_map, List.getElem_range]

theorem classify_grid (ev : List TideEvent) : ∀ pt ∈ classify ev, round2 pt.h = pt.h := by
  intro pt hpt
  unfold classify at hpt
  rcases List.mem_map.mp hpt with ⟨i, _, rfl⟩
  exact round2_idem _

theorem classify_pairwise_time {ev : List TideEvent} (hp : List.Pairwise leTime ev) :
    List.Pairwise (fun a b : CPoint => timeLe a.time b.time = true) (classify ev) := by
  rw [List.pairwise_iff_get] at hp ⊢
  intro a b hab
  have hcl : (classify ev).length = ev.length := classify_length ev
  have ha : (a : Nat) < ev.length := by have := a.isLt; omega
  have hb : (b : Nat) < ev.length := by have := b.isLt; omega
  have hget : ∀ (x : Fin (classify ev).length),
      (classify ev).get x = (classify ev).getD (x : Nat) default :=
    fun x => (getD_eq_get _ x.isLt).symm
  rw [hget a, hget b, classify_getD ha, classify_getD hb]
  have hev := hp ⟨a, ha⟩ ⟨b, hb⟩ (by simpa using hab)
  unfold leTime at hev
  rw [getD_eq_get ev ha, getD_eq_get ev hb]
  exact hev

/-- One output day record (lines 394-399). -/
structure DaySummary where
  date : String
  pairs : List TidalPair
  max_high_m : ℚ
  max_move_m : ℚ
deriving DecidableEq

/-- The per-day step of `main`'s window loop (lines 386-399): build the day's
pairs; with no pairs the day is dropped; otherwise compute the two maxima and
keep the day exactly when the threshold disjunction of line 393 holds. -/
def daySummary (high_thr move_thr : ℚ) (key : String) (events : List TideEvent) :
    Option DaySummary :=
  match build_low_to_high_pairs events with
  | [] => none
  | p :: ps =>
    let max_high := listMax p.high_m (ps.map (·.high_m))
    let max_move := listMax p.move_m (ps.map (·.move_m))
    if (high_thr ≤ 0 ∨ high_thr ≤ max_high) ∨ (move_thr ≤ 0 ∨ move_thr ≤ max_move) then
      some ⟨key, p :: ps, round2 max_high, round2 max_move⟩
    else none

/-- Python's `str.strip()`: drop whitespace from both ends (computed on the
character list so that the kernel can evaluate it). -/
def pyStrip (s : String) : String :=
  String.mk (((s.data.dropWhile Char.isWhitespace).reverse.dropWhile Char.isWhitespace).reverse)

/-- Python's `str.zfill(4)`: left-pad with zeros to width 4, a leading sign
staying in front of the padding. -/
def zfill4 (s : String) : String :=
  if 4 ≤ s.data.length then s
  else
    let sign : List Char :=
      match s.data with
      | c :: _ => if c = '+' ∨ c = '-' then [c] else []
      | [] => []
    String.mk (sign ++ List.replicate (4 - s.data.length) '0' ++ s.data.drop sign.length)

/-- `ztime` (lines 58-59): strip surrounding whitespace, zero-pad to 4. -/
def ztime (t : String) : String := zfill4 (pyStrip t)

/-- `add_event` (lines 125-131) restricted to one date's list: append the
observation unless one with the same normalized time and the same height
rounded to 2 decimals is already present. -/
def add_event (l : List TideEvent) (t : String) (h : ℚ) : List TideEvent :=
  let t2 := ztime t
  if l.any fun e => decide (e.time_hhmm = t2 ∧ round2 e.height_m = round2 h) then l
  else l ++ [⟨t2, h⟩]

/-- The month / year state threaded through the document scan of
`parse_from_text` (lines 100-103). -/
structure CalState where
  current_month : Option Nat
  current_year : ℤ
  last_month_seen : Option Nat
deriving DecidableEq

/-- The state update of `set_month_from_line` (lines 105-123) once the heading
regex has matched: `mnum` is the month number looked up in the MONTHS table
(1-12 for every key; a failed lookup returns unchanged, lines 113-114), `yr`
the explicit 4-digit year when the heading carries one.  An explicit year is
adopted; otherwise a December-to-January rollover bumps the year. -/
def set_month_from_line (st : CalState) (mnum : Nat) (yr : Option Nat) : CalState :=
  if mnum = 0 then st
  else
    { current_month := some mnum
      current_year :=
        match yr with
        | some y => (y : ℤ)
        | none =>
          if st.last_month_seen = some 12 ∧ mnum = 1 then st.current_year + 1
          else st.current_year
      last_month_seen := some mnum }

/-- The sanitization of `safe_height` (line 68): keep digit characters and
dots only. -/
def sanitize (token : String) : String :=
  String.mk ((pyStrip token).data.filter fun ch => ch.isDigit || ch == '.')

/-- Value of a digit string (most significant first). -/
def digitsToNat (cs : List Char) : Nat := cs.foldl (fun n c => 10 * n + (c.toNat - '0'.toNat)) 0

/-- Python's `float` on a string of digits with at most one dot: its exact
decimal value, `none` on the strings (empty, a lone dot) float rejects. -/
def parseDecimal (s : String) : Option ℚ :=
  match List.splitOn '.' s.data with
  | [ip] => if ip = [] then none else some ((digitsToNat ip : ℕ) : ℚ)
  | [ip, fp] =>
    if ip = [] ∧ fp = [] then none
    else some (((digitsToNat ip : ℕ) : ℚ) +
      ((digitsToNat fp : ℕ) : ℚ) / ((10 : ℚ) ^ fp.length))
  | _ => none

/-- `safe_height` (lines 61-74): sanitize, reject empty or multi-dot results,
parse the rest as a decimal number (heights modelled as exact rationals). -/
def safe_height (token : String) : Option ℚ :=
  let s := sanitize token
  if s = "" ∨ 1 < s.data.count '.' then none
  else parseDecimal s

/-- `TIME_RE = ^\d{3,4}$` fullmatch (line 43). -/
def isTimeTok (s : String) : Bool :=
  (s.length = 3 || s.length = 4) && s.data.all (·.isDigit)

/-- The pairwise token scan of a day row (lines 151-162): a 3-4 digit time
token followed by a parsable height token yields a pair and advances by two;
any other token - including a height token `safe_height` rejects - advances
by one, skipping just that candidate pair and never abandoning the row. -/
def scanRow : List String → List (String × ℚ)
  | t :: htok :: rest =>
    if isTimeTok t then
      match safe_height htok with
      | some hf => (ztime t, hf) :: scanRow rest
      | none => scanRow (htok :: rest)
    else scanRow (htok :: rest)
  | _ => []

/-- One observation of `scripts/make_tide_next_json.py` (`TideEvent` there):
the datetime is modelled as a rational timestamp. -/
structure TideEventN where
  dt : ℚ
  height : ℚ
deriving DecidableEq

instance : Inhabited TideEventN := ⟨⟨0, 0⟩⟩

/-- `classify` of make_tide_next_json.py (lines 116-123): the loop over
`range(1, len(events)-1)` collects interior points at least as high as both
neighbours into `highs` and interior points at most as high as both
neighbours into `lows` (a flat point can land in both). -/
def classifyN (events : List TideEventN) : List TideEventN × List TideEventN :=
  let idxs := (List.range (events.length - 1)).drop 1
  let highs := (idxs.filter fun i =>
    decide ((events.getD (i - 1) default).height ≤ (events.getD i default).height ∧
      (events.getD (i + 1) default).height ≤ (events.getD i default).height)).map
      fun i => events.getD i default
  let lows := (idxs.filter fun i =>
    decide ((events.getD i default).height ≤ (events.getD (i - 1) default).height ∧
      (events.getD i default).height ≤ (events.getD (i + 1) default).height)).map
      fun i => events.getD i default
  (highs, lows)

/-- `next_after` (lines 126-130): the first event strictly after `t`. -/
def next_after (events : List TideEventN) (t : ℚ) : Option TideEventN :=
  events.find? fun e => decide (t < e.dt)

/-- The per-station payload of make_tide_next_json.py, ISO strings replaced
by the underlying timestamps. -/
structure NextTurn where
  nextHighDt : ℚ
  nextLowDt : ℚ
  nextHigh_m : ℚ
  nextLow_m : ℚ
  range_m : ℚ
deriving DecidableEq

/-- `build_payload` (lines 133-152) with the `now()` instant passed in:
`none` for an empty event list and whenever the next high or the next low
after `current` is missing, the five-field payload otherwise. -/
def build_payload (current : ℚ) (events : List TideEventN) : Option NextTurn :=
  if events = [] then none
  else
    let hl := classifyN events
    match next_after hl.1 current, next_after hl.2 current with
    | some nh, some nl =>
      some ⟨nh.dt, nl.dt, round2 nh.height, round2 nl.height, round2 |nh.height - nl.height|⟩
    | _, _ => none

theorem chain_imp_mono {ev : List TideEvent}
    (hc : List.Chain' (fun a b : TideEvent => a.height_m < b.height_m) ev) :
    ∀ k, k + 1 < ev.length → heightAt ev k < heightAt ev (k + 1) := by
  intro k hk
  have h := List.chain'_iff_get.mp hc k (by omega)
  rw [heightAt, heightAt, getD_eq_get ev (by omega : k < ev.length),
    getD_eq_get ev (by omega : k + 1 < ev.length)]
  exact h

theorem classify_kind_zero_of_mono {ev : List TideEvent} (hn : 2 ≤ ev.length)
    (hm : ∀ k, k + 1 < ev.length → heightAt ev k < heightAt ev (k + 1)) :
    ((classify ev).getD 0 default).kind = Kind.low := by
  rw [classify_getD (by omega)]
  dsimp only
  unfold classifyAt
  rw [if_pos rfl, heights_getD (by omega), heights_getD (by omega)]
  exact if_pos (le_of_lt (hm 0 (by omega)))

theorem classify_kind_pos_of_mono {ev : List TideEvent} (hn : 2 ≤ ev.length)
    (hm : ∀ k, k + 1 < ev.length → heightAt ev k < heightAt ev (k + 1)) :
    ∀ k, 1 ≤ k → k < ev.length → ((classify ev).getD k default).kind = Kind.high := by
  intro k h1 h2
  rw [classify_getD h2]
  dsimp only
  unfold classifyAt
  rw [if_neg (by omega : ¬ k = 0)]
  by_cases hlast : k = ev.length - 1
  · rw [if_pos hlast]
    have hp : heightAt ev (k - 1) < heightAt ev k := by
      have h := hm (k - 1) (by omega)
      rwa [(by omega : k - 1 + 1 = k)] at h
    rw [heights_getD (by omega), heights_getD (by omega)]
    exact if_pos (le_of_lt hp)
  · rw [if_neg hlast]
    dsimp only
    have hp : heightAt ev (k - 1) < heightAt ev k := by
      have h := hm (k - 1) (by omega)
      rwa [(by omega : k - 1 + 1 = k)] at h
    have hq : heightAt ev k < heightAt ev (k + 1) := hm k (by omega)
    rw [heights_getD (by omega : k - 1 < ev.length), heights_getD (by omega : k + 1 < ev.length),
      heights_getD (by omega : k < ev.length)]
    rw [if_neg (fun hcon => absurd hcon.1 (not_le.mpr hp)),
      if_neg (fun hcon => absurd hcon.2 (not_le.mpr hq))]
    exact if_pos hp

/-- C1: for every observation sequence of length at least 2, the classifier of
`build_low_to_high_pairs` labels index 0 `low` iff `height[0] <= height[1]`
(else `high`), the last index `high` iff `height[n-1] >= height[n-2]`
(else `low`), and an interior index `low` when its height is at most both
neighbours, else `high` when at least both neighbours, else `high` exactly
when it strictly exceeds its predecessor; a sequence shorter than 2
classifies to no points and yields no pairs. -/
theorem classifier_boundary_and_interior_rule (ev : List TideEvent) :
    (2 ≤ ev.length →
      (((classify ev).getD 0 default).kind = Kind.low ↔ heightAt ev 0 ≤ heightAt ev 1) ∧
      (((classify ev).getD (ev.length - 1) default).kind = Kind.high ↔
        heightAt ev (ev.length - 2) ≤ heightAt ev (ev.length - 1)) ∧
      ∀ i, 0 < i → i < ev.length - 1 →
        ((classify ev).getD i default).kind =
          (if heightAt ev i ≤ heightAt ev (i - 1) ∧ heightAt ev i ≤ heightAt ev (i + 1)
            then Kind.low
          else if heightAt ev (i - 1) ≤ heightAt ev i ∧ heightAt ev (i + 1) ≤ heightAt ev i
            then Kind.high
          else if heightAt ev (i - 1) < heightAt ev i then Kind.high else Kind.low)) ∧
    (ev.length < 2 → dayClassifiedPoints ev = [] ∧ build_low_to_high_pairs ev = []) := by
  constructor
  · intro hn
    refine ⟨?_, ?_, ?_⟩
    · rw [classify_getD (by omega)]
      dsimp only
      unfold classifyAt
      rw [if_pos rfl, heights_getD (by omega), heights_getD (by omega)]
      split_ifs with hc
      · simp [hc]
      · simp [hc]
    · rw [classify_getD (by omega)]
      dsimp only
      unfold classifyAt
      rw [if_neg (by omega : ¬ ev.length - 1 = 0), if_pos rfl,
        (by omega : ev.length - 1 - 1 = ev.length - 2),
        heights_getD (by omega), heights_getD (by omega)]
      split_ifs with hc
      · simp [hc]
      · simp [hc]
    · intro i h0 h1
      rw [classify_getD (by omega)]
      dsimp only
      unfold classifyAt
      rw [if_neg (by omega : ¬ i = 0), if_neg (by omega : ¬ i = ev.length - 1)]
      dsimp only
      rw [heights_getD (by omega : i - 1 < ev.length),
        heights_getD (by omega : i + 1 < ev.length), heights_getD (by omega : i < ev.length)]
  · intro hn
    constructor
    · unfold dayClassifiedPoints
      rw [if_pos hn]
    · unfold build_low_to_high_pairs
      rw [if_pos hn]

theorem classifier_boundary_witness :
    2 ≤ ([⟨"0100", 1⟩, ⟨"0200", 3⟩, ⟨"0300", 2⟩] : List TideEvent).length ∧
    ((classify [⟨"0100", 1⟩, ⟨"0200", 3⟩, ⟨"0300", 2⟩]).getD 0 default).kind = Kind.low :=
  ⟨by decide,
    ((classifier_boundary_and_interior_rule [⟨"0100", 1⟩, ⟨"0200", 3⟩, ⟨"0300", 2⟩]).1
      (by decide)).1.mpr (by decide)⟩

/-- C2: the pairer scans left to right: a non-low point is stepped over; at a
low with no later high the scan stops and emits nothing further; `findHigh`
really returns the nearest subsequent high (everything strictly between is
not a high); a high not strictly above the low emits nothing and the scan
resumes one past the low; an emitted pair resumes right after the paired
high. -/
theorem pairer_scan_steps (c : List CPoint) (i j : Nat) :
    (i < c.length → (c.getD i default).kind ≠ Kind.low →
      scanPairs c i = scanPairs c (i + 1)) ∧
    (i < c.length → (c.getD i default).kind = Kind.low → findHigh c (i + 1) = none →
      scanPairs c i = []) ∧
    (findHigh c (i + 1) = some j →
      i + 1 ≤ j ∧ j < c.length ∧ (c.getD j default).kind = Kind.high ∧
        ∀ k, i + 1 ≤ k → k < j → (c.getD k default).kind ≠ Kind.high) ∧
    (i < c.length → (c.getD i default).kind = Kind.low → findHigh c (i + 1) = some j →
      (c.getD j default).h ≤ (c.getD i default).h →
      scanPairs c i = scanPairs c (i + 1)) ∧
    (i < c.length → (c.getD i default).kind = Kind.low → findHigh c (i + 1) = some j →
      (c.getD i default).h < (c.getD j default).h →
      scanPairs c i =
        ⟨(c.getD i default).time, round2 (c.getD i default).h, (c.getD j default).time,
          round2 (c.getD j default).h,
          round2 ((c.getD j default).h - (c.getD i default).h)⟩ :: scanPairs c (j + 1)) :=
  ⟨fun hi hk => scanPairs_skip hi hk,
    fun hi hk hf => scanPairs_stop hi hk hf,
    fun hf => ⟨(findHigh_bounds hf).1, (findHigh_bounds hf).2.1, (findHigh_bounds hf).2.2,
      findHigh_min hf⟩,
    fun hi hk hf hle => scanPairs_reject hi hk hf hle,
    fun hi hk hf hgt => scanPairs_emit hi hk hf hgt⟩

/-- A small classified sequence instantiating the scan-step theorem. -/
def sampleClassified : List CPoint :=
  [⟨"0100", 1, Kind.low⟩, ⟨"0200", 2, Kind.high⟩, ⟨"0300", 1, Kind.low⟩]

theorem pairer_scan_steps_witness :
    (sampleClassified.getD 0 default).kind = Kind.low ∧
    findHigh sampleClassified 1 = some 1 ∧
    scanPairs sampleClassified 0 =
      ⟨"0100", round2 1, "0200", round2 2, round2 (2 - 1)⟩ :: scanPairs sampleClassified 2 :=
  ⟨by decide, by decide,
    (pairer_scan_steps sampleClassified 0 1).2.2.2.2 (by decide) (by decide) (by decide)
      (by decide)⟩

/-- C3 counterexample: two observations can share the clock string `0600`
(the store deduplicates only identical time-and-height pairs), and then the
emitted pair's high time equals its low time, so the high's time does not
occur strictly after the low's. -/
theorem pair_equal_times_cex :
    (build_low_to_high_pairs [⟨"0600", 1⟩, ⟨"0600", 2⟩]).map
      (fun p => (p.low_time, p.high_time, p.move_m)) = [("0600", "0600", 1)] := by decide

/-- C3 (amended): every emitted pair has `move_m = high_m - low_m`, strictly
positive, and the low's time is at or before the high's time in the string
order of the sort key (equality only for duplicate clock strings; the high
always sits strictly later in the classified sequence). -/
theorem pair_move_positive_time_le (events : List TideEvent) :
    ∀ p ∈ build_low_to_high_pairs events,
      p.move_m = p.high_m - p.low_m ∧ 0 < p.move_m ∧ timeLe p.low_time p.high_time = true := by
  intro p hp
  unfold build_low_to_high_pairs at hp
  by_cases hlen : events.length < 2
  · rw [if_pos hlen] at hp
    cases hp
  · rw [if_neg hlen] at hp
    exact scanPairs_fields (classify_grid _)
      (classify_pairwise_time (sorted_sortByTime events)) p hp

theorem pair_move_positive_witness :
    (⟨"0100", 1, "0200", 2, 1⟩ : TidalPair) ∈
      build_low_to_high_pairs [⟨"0100", 1⟩, ⟨"0200", 2⟩] ∧
    ((1 : ℚ) = 2 - 1 ∧ (0 : ℚ) < 1 ∧ timeLe "0100" "0200" = true) :=
  ⟨by decide,
    pair_move_positive_time_le [⟨"0100", 1⟩, ⟨"0200", 2⟩] ⟨"0100", 1, "0200", 2, 1⟩ (by decide)⟩

/-- A non-decreasing (but not strictly increasing) day on which the pairer
emits two pairs. -/
def plateauDay : List TideEvent :=
  [⟨"0100", 1⟩, ⟨"0200", 1⟩, ⟨"0300", 2⟩, ⟨"0400", 2⟩, ⟨"0500", 3⟩]

/-- C8 counterexample: a day whose heights are monotonically non-decreasing in
time order can yield two pairs (the plateau points classify as fresh lows),
refuting "at most one pair" for non-decreasing days. -/
theorem monotone_two_pairs_cex :
    List.Chain' (fun a b : TideEvent => a.height_m ≤ b.height_m) (sortByTime plateauDay) ∧
    1 < (build_low_to_high_pairs plateauDay).length := by
  constructor
  · have hs : sortByTime plateauDay = plateauDay := by decide
    rw [hs]
    unfold plateauDay
    refine List.chain'_cons.mpr ⟨by decide, ?_⟩
    refine List.chain'_cons.mpr ⟨by decide, ?_⟩
    refine List.chain'_cons.mpr ⟨by decide, ?_⟩
    refine List.chain'_cons.mpr ⟨by decide, ?_⟩
    exact List.chain'_singleton _
  · decide

/-- C8 (amended): the pairer emits at most `floor(n/2)` pairs on any day of
`n` observations, and a day whose heights are strictly increasing in time
order yields at most one pair. -/
theorem pair_count_bound (events : List TideEvent) :
    (build_low_to_high_pairs events).length ≤ events.length / 2 ∧
    (List.Chain' (fun a b : TideEvent => a.height_m < b.height_m) (sortByTime events) →
      (build_low_to_high_pairs events).length ≤ 1) := by
  constructor
  · unfold build_low_to_high_pairs
    by_cases hlen : events.length < 2
    · rw [if_pos hlen]
      simp
    · rw [if_neg hlen]
      have h := scanPairs_length (classify (sortByTime events)) 0
      rwa [classify_length, length_sortByTime, Nat.sub_zero] at h
  · intro hc
    unfold build_low_to_high_pairs
    by_cases hlen : events.length < 2
    · rw [if_pos hlen]
      simp
    · rw [if_neg hlen]
      have hlev : (sortByTime events).length = events.length := length_sortByTime events
      have hlc : (classify (sortByTime events)).length = (sortByTime events).length :=
        classify_length _
      have hm := chain_imp_mono hc
      have hn2 : 2 ≤ (sortByTime events).length := by omega
      have hk0 : ((classify (sortByTime events)).getD 0 default).kind = Kind.low :=
        classify_kind_zero_of_mono hn2 hm
      have hkpos : ∀ k, 1 ≤ k → k < (sortByTime events).length →
          ((classify (sortByTime events)).getD k default).kind = Kind.high :=
        classify_kind_pos_of_mono hn2 hm
      have hfind : findHigh (classify (sortByTime events)) 1 = some 1 := by
        rw [findHigh_eq, if_pos (by omega : 1 < (classify (sortByTime events)).length),
          if_pos (hkpos 1 le_rfl (by omega))]
      by_cases hle : ((classify (sortByTime events)).getD 1 default).h ≤
          ((classify (sortByTime events)).getD 0 default).h
      · rw [scanPairs_reject (by omega) hk0 hfind hle,
          scanPairs_allHigh fun k hk1 hk2 => hkpos k hk1 (by omega)]
        simp
      · rw [scanPairs_emit (by omega) hk0 hfind (not_le.mp hle),
          scanPairs_allHigh fun k hk1 hk2 => hkpos k (by omega) (by omega)]
        simp

/-- A strictly increasing day instantiating the pair-count theorem. -/
def risingDay : List TideEvent := [⟨"0100", 1⟩, ⟨"0200", 2⟩, ⟨"0300", 3⟩]

theorem pair_count_bound_witness :
    List.Chain' (fun a b : TideEvent => a.height_m < b.height_m) (sortByTime risingDay) ∧
    (build_low_to_high_pairs risingDay).length ≤ 1 := by
  have hc : List.Chain' (fun a b : TideEvent => a.height_m < b.height_m)
      (sortByTime risingDay) := by
    have hs : sortByTime risingDay = risingDay := by decide
    rw [hs]
    unfold risingDay
    refine List.chain'_cons.mpr ⟨by decide, ?_⟩
    refine List.chain'_cons.mpr ⟨by decide, ?_⟩
    exact List.chain'_singleton _
  exact ⟨hc, (pair_count_bound risingDay).2 hc⟩

/-- C4: for every day with at least one emitted pair, the summary is kept
exactly when `(high_thr <= 0 or max_high >= high_thr) or (move_thr <= 0 or
max_move >= move_thr)` (line 393); in particular a non-positive threshold on
either side keeps every day that has pairs. -/
theorem day_inclusion_rule (hthr mthr : ℚ) (key : String) (events : List TideEvent)
    (p : TidalPair) (ps : List TidalPair)
    (hpairs : build_low_to_high_pairs events = p :: ps) :
    ((daySummary hthr mthr key events).isSome ↔
      ((hthr ≤ 0 ∨ listMax p.high_m (ps.map (·.high_m)) ≥ hthr) ∨
        (mthr ≤ 0 ∨ listMax p.move_m (ps.map (·.move_m)) ≥ mthr))) ∧
    (hthr ≤ 0 ∨ mthr ≤ 0 → (daySummary hthr mthr key events).isSome) := by
  constructor
  · unfold daySummary
    rw [hpairs]
    dsimp only
    split_ifs with hcond
    · exact iff_of_true rfl hcond
    · exact iff_of_false (by simp) hcond
  · intro hz
    unfold daySummary
    rw [hpairs]
    dsimp only
    rw [if_pos ?_]
    · rfl
    · rcases hz with h | h
      · exact Or.inl (Or.inl h)
      · exact Or.inr (Or.inl h)

theorem day_inclusion_witness :
    build_low_to_high_pairs [⟨"0000", 1⟩, ⟨"0600", 2⟩] = [⟨"0000", 1, "0600", 2, 1⟩] ∧
    (daySummary 0 0 "2026-01-05" [⟨"0000", 1⟩, ⟨"0600", 2⟩]).isSome :=
  ⟨by decide,
    (day_inclusion_rule 0 0 "2026-01-05" [⟨"0000", 1⟩, ⟨"0600", 2⟩] ⟨"0000", 1, "0600", 2, 1⟩
      [] (by decide)).2 (Or.inl le_rfl)⟩

theorem classifyN_short {events : List TideEventN} (h : events.length < 3) :
    classifyN events = ([], []) := by
  unfold classifyN
  have hd : (List.range (events.length - 1)).drop 1 = [] := by
    rw [List.drop_eq_nil_iff]
    simp only [List.length_range]
    omega
  rw [hd]
  rfl

theorem build_payload_short {current : ℚ} {events : List TideEventN}
    (h : events.length < 3) : build_payload current events = none := by
  unfold build_payload
  by_cases hev : events = []
  · rw [if_pos hev]
  · rw [if_neg hev]
    dsimp only
    rw [classifyN_short h]
    rfl

/-- C5: the next-turn finder returns the first classified high and the first
classified low strictly after `now`: the payload is `none` exactly when one
of them is missing (in particular for fewer than 3 observations, where the
classifier finds nothing), and otherwise carries precisely the found pair;
`next_after` returns the earliest event of its list strictly after `now`. -/
theorem next_turn_payload_rule (current : ℚ) (events : List TideEventN)
    (nh nl : TideEventN) :
    (events.length < 3 → build_payload current events = none) ∧
    (build_payload current events = none ↔
      (next_after (classifyN events).1 current = none ∨
        next_after (classifyN events).2 current = none)) ∧
    (next_after (classifyN events).1 current = some nh →
      next_after (classifyN events).2 current = some nl →
      build_payload current events =
        some ⟨nh.dt, nl.dt, round2 nh.height, round2 nl.height,
          round2 |nh.height - nl.height|⟩) ∧
    (∀ l : List TideEventN, ∀ e, next_after l current = some e →
      current < e.dt ∧ ∃ pre post, l = pre ++ e :: post ∧ ∀ x ∈ pre, ¬ current < x.dt) := by
  refine ⟨fun h => build_payload_short h, ?_, ?_, ?_⟩
  · by_cases hev : events = []
    · subst hev
      simp [build_payload, classifyN, next_after]
    · unfold build_payload
      rw [if_neg hev]
      dsimp only
      cases h1 : next_after (classifyN events).1 current with
      | none => simp [h1]
      | some x =>
        cases h2 : next_after (classifyN events).2 current with
        | none => simp [h2]
        | some y => simp [h1, h2]
  · intro h1 h2
    have hev : events ≠ [] := by
      intro he
      subst he
      have hmem : nh ∈ (classifyN ([] : List TideEventN)).1 :=
        List.mem_of_find?_eq_some h1
      simp [classifyN] at hmem
    unfold build_payload
    rw [if_neg hev]
    dsimp only
    rw [h1, h2]
  · intro l e hfind
    unfold next_after at hfind
    obtain ⟨hpb, pre, post, heq, hpre⟩ := List.find?_eq_some.mp hfind
    refine ⟨by simpa using hpb, pre, post, heq, ?_⟩
    intro x hx
    simpa using hpre x hx

/-- A small next-turn station sequence instantiating the payload theorem. -/
def nextSample : List TideEventN := [⟨0, 2⟩, ⟨1, 5⟩, ⟨2, 1⟩, ⟨3, 4⟩]

theorem next_turn_payload_witness :
    next_after (classifyN nextSample).1 0 = some ⟨1, 5⟩ ∧
    next_after (classifyN nextSample).2 0 = some ⟨2, 1⟩ ∧
    build_payload 0 nextSample = some ⟨1, 2, 5, 1, 4⟩ :=
  ⟨by decide, by decide,
    (next_turn_payload_rule 0 nextSample ⟨1, 5⟩ ⟨2, 1⟩).2.2.1 (by decide) (by decide)⟩

/-- C6: adding an observation whose normalized time and 2-decimal-rounded
height already occur for the date leaves the list unchanged; the final sort
orders every date's list by time ascending; hence adding the same row twice
(overlapping pages) is the same as adding it once. -/
theorem event_store_dedup_and_sort (l : List TideEvent) (t : String) (h : ℚ) :
    ((∃ e ∈ l, e.time_hhmm = ztime t ∧ round2 e.height_m = round2 h) →
      add_event l t h = l) ∧
    List.Sorted leTime (sortByTime l) ∧
    add_event (add_event l t h) t h = add_event l t h := by
  have hdec : ∀ m : List TideEvent,
      (∃ e ∈ m, e.time_hhmm = ztime t ∧ round2 e.height_m = round2 h) →
      (m.any fun e => decide (e.time_hhmm = ztime t ∧ round2 e.height_m = round2 h)) = true := by
    intro m hm
    rcases hm with ⟨e, he, h1, h2⟩
    exact List.any_eq_true.mpr ⟨e, he, by simp [h1, h2]⟩
  refine ⟨?_, sorted_sortByTime l, ?_⟩
  · intro hex
    unfold add_event
    rw [if_pos (hdec l hex)]
  · by_cases hmem :
        (l.any fun e => decide (e.time_hhmm = ztime t ∧ round2 e.height_m = round2 h)) = true
    · have h1 : add_event l t h = l := by
        unfold add_event
        rw [if_pos hmem]
      rw [h1, h1]
    · have h1 : add_event l t h = l ++ [⟨ztime t, h⟩] := by
        unfold add_event
        rw [if_neg hmem]
      rw [h1]
      unfold add_event
      dsimp only
      have hp2 : ((l ++ [(⟨ztime t, h⟩ : TideEvent)]).any fun e =>
          decide (e.time_hhmm = ztime t ∧ round2 e.height_m = round2 h)) = true :=
        hdec (l ++ [⟨ztime t, h⟩]) ⟨⟨ztime t, h⟩, by simp, rfl, rfl⟩
      rw [if_pos hp2]

theorem event_store_witness :
    (∃ e ∈ [(⟨"0630", 2.8⟩ : TideEvent)],
      e.time_hhmm = ztime " 630" ∧ round2 e.height_m = round2 2.8) ∧
    add_event [(⟨"0630", 2.8⟩ : TideEvent)] " 630" 2.8 = [⟨"0630", 2.8⟩] :=
  ⟨⟨⟨"0630", 2.8⟩, by decide, by decide, rfl⟩,
    (event_store_dedup_and_sort [⟨"0630", 2.8⟩] " 630" 2.8).1
      ⟨⟨"0630", 2.8⟩, by decide, by decide, rfl⟩⟩

/-- C7: a heading with an explicit year adopts it; a heading without a year
bumps the year by exactly 1 iff the previously seen month was December and
the new month is January, else leaves it unchanged; the current month (and
last seen month) always become the heading's month. -/
theorem calendar_heading_rule (st : CalState) (mnum : Nat) (yr : Option Nat)
    (hm : mnum ≠ 0) :
    (∀ y, yr = some y → (set_month_from_line st mnum yr).current_year = (y : ℤ)) ∧
    (yr = none →
      (set_month_from_line st mnum yr).current_year =
        (if st.last_month_seen = some 12 ∧ mnum = 1 then st.current_year + 1
          else st.current_year)) ∧
    (set_month_from_line st mnum yr).current_month = some mnum ∧
    (set_month_from_line st mnum yr).last_month_seen = some mnum := by
  unfold set_month_from_line
  rw [if_neg hm]
  refine ⟨?_, ?_, rfl, rfl⟩
  · intro y hy
    subst hy
    rfl
  · intro hy
    subst hy
    rfl

theorem calendar_heading_witness :
    (1 : Nat) ≠ 0 ∧
    (set_month_from_line ⟨some 12, 2025, some 12⟩ 1 none).current_year = 2026 :=
  ⟨by decide, by
    rw [(calendar_heading_rule ⟨some 12, 2025, some 12⟩ 1 none (by decide)).2.1 rfl]
    decide⟩

/-- C9: sanitization keeps only digit characters and dots; a time token whose
height token still fails to parse is dropped by advancing one position - the
row scan goes on, it never abandons the rest of the row - while a parsable
height emits its pair and advances past both tokens. -/
theorem safe_height_sanitize_and_skip (token t htok : String) (rest : List String) :
    (∀ ch ∈ (sanitize token).data, ch.isDigit ∨ ch = '.') ∧
    (sanitize token = "" ∨ 1 < (sanitize token).data.count '.' →
      safe_height token = none) ∧
    (isTimeTok t = true → safe_height htok = none →
      scanRow (t :: htok :: rest) = scanRow (htok :: rest)) ∧
    (∀ hf, isTimeTok t = true → safe_height htok = some hf →
      scanRow (t :: htok :: rest) = (ztime t, hf) :: scanRow rest) := by
  have hrow : ∀ (u v : String) (rs : List String),
      scanRow (u :: v :: rs) =
        if isTimeTok u then
          match safe_height v with
          | some hf => (ztime u, hf) :: scanRow rs
          | none => scanRow (v :: rs)
        else scanRow (v :: rs) := fun u v rs => rfl
  refine ⟨?_, ?_, ?_, ?_⟩
  · intro ch hch
    unfold sanitize at hch
    rcases List.mem_filter.mp hch with ⟨_, hp⟩
    simpa using hp
  · intro hbad
    unfold safe_height
    rw [if_pos hbad]
  · intro ht hnone
    rw [hrow, if_pos ht, hnone]
  · intro hf ht hsome
    rw [hrow, if_pos ht, hsome]

theorem safe_height_witness :
    isTimeTok "0630" = true ∧ safe_height "x" = none ∧
    scanRow ["0630", "x", "1200", "2.8"] = scanRow ["x", "1200", "2.8"] :=
  ⟨by decide, by decide,
    (safe_height_sanitize_and_skip "x" "0630" "x" ["1200", "2.8"]).2.2.1 (by decide) (by decide)⟩

theorem mem_drop_one_range {m i : Nat} (h : i ∈ (List.range m).drop 1) :
    1 ≤ i ∧ i < m := by
  cases m with
  | zero => simp at h
  | succ m =>
    rw [List.range_succ_eq_map] at h
    simp only [List.drop_succ_cons, List.drop_zero, List.mem_map] at h
    obtain ⟨k, hk, rfl⟩ := h
    have := List.mem_range.mp hk
    omega

/-- C10: the next-turn classifier labels only interior observations: every
returned high or low is the event at some index `1..n-2`, so the first and
last observation are never reported; fewer than 3 observations give empty
highs and lows and a `none` payload, and any returned payload draws its next
high and next low from those interior lists. -/
theorem classifyN_interior_only (current : ℚ) (events : List TideEventN) (p : NextTurn) :
    (∀ e ∈ (classifyN events).1, ∃ i, 1 ≤ i ∧ i + 1 < events.length ∧
      events.getD i default = e) ∧
    (∀ e ∈ (classifyN events).2, ∃ i, 1 ≤ i ∧ i + 1 < events.length ∧
      events.getD i default = e) ∧
    (events.length < 3 → classifyN events = ([], []) ∧ build_payload current events = none) ∧
    (build_payload current events = some p →
      (∃ e ∈ (classifyN events).1, p.nextHighDt = e.dt ∧ p.nextHigh_m = round2 e.height) ∧
      (∃ e ∈ (classifyN events).2, p.nextLowDt = e.dt ∧ p.nextLow_m = round2 e.height)) := by
  refine ⟨?_, ?_, fun h => ⟨classifyN_short h, build_payload_short h⟩, ?_⟩
  · intro e he
    unfold classifyN at he
    dsimp only at he
    rcases List.mem_map.mp he with ⟨i, hif, rfl⟩
    rcases List.mem_filter.mp hif with ⟨hidx, _⟩
    obtain ⟨hi1, hi2⟩ := mem_drop_one_range hidx
    exact ⟨i, hi1, by omega, rfl⟩
  · intro e he
    unfold classifyN at he
    dsimp only at he
    rcases List.mem_map.mp he with ⟨i, hif, rfl⟩
    rcases List.mem_filter.mp hif with ⟨hidx, _⟩
    obtain ⟨hi1, hi2⟩ := mem_drop_one_range hidx
    exact ⟨i, hi1, by omega, rfl⟩
  · intro hp
    unfold build_payload at hp
    by_cases hev : events = []
    · rw [if_pos hev] at hp
      cases hp
    · rw [if_neg hev] at hp
      dsimp only at hp
      cases h1 : next_after (classifyN events).1 current with
      | none =>
        rw [h1] at hp
        cases h2 : next_after (classifyN events).2 current with
        | none => rw [h2] at hp; cases hp
        | some y => rw [h2] at hp; cases hp
      | some nh =>
        cases h2 : next_after (classifyN events).2 current with
        | none => rw [h1, h2] at hp; cases hp
        | some nl =>
          rw [h1, h2] at hp
          dsimp only at hp
          obtain rfl : (⟨nh.dt, nl.dt, round2 nh.height, round2 nl.height,
              round2 |nh.height - nl.height|⟩ : NextTurn) = p := Option.some.inj hp
          exact ⟨⟨nh, List.mem_of_find?_eq_some h1, rfl, rfl⟩,
            ⟨nl, List.mem_of_find?_eq_some h2, rfl, rfl⟩⟩

theorem classifyN_interior_witness :
    build_payload 0 nextSample = some ⟨1, 2, 5, 1, 4⟩ ∧
    ((∃ e ∈ (classifyN nextSample).1, (1 : ℚ) = e.dt ∧ (5 : ℚ) = round2 e.height) ∧
      (∃ e ∈ (classifyN nextSample).2, (2 : ℚ) = e.dt ∧ (1 : ℚ) = round2 e.height)) :=
  ⟨by decide,
    (classifyN_interior_only 0 nextSample ⟨1, 2, 5, 1, 4⟩).2.2.2 (by decide)⟩

end Tides
